import Mathlib

/-!
Verification development for the mwixnet mix-node core (onion routing,
commitment signatures, swap admission, swap store, round execution).

Shallow embedding conventions:
* secp256k1 scalars are `ZMod nOrder` where `nOrder` is the curve group order;
  scalar arithmetic in the library is exactly arithmetic modulo this prime.
* Curve points in the prime-order group are represented by their discrete
  logarithm base `G` (a `Scalar`); scalar multiplication of a point is
  multiplication of discrete logarithms.  A Pedersen commitment `v*H + r*G`
  is represented by the pair of its coefficients over the independent
  generators `(H, G)`; the library's `commit_sum` adds coefficients
  componentwise.
* Hash functions (SHA-256, Blake2b, HMAC-SHA256), the ChaCha20 keystream and
  the ECDH shared-secret derivation are cryptographic black boxes supplied by
  external libraries; they are oracle parameters of the model
  (`CryptoOracles`).  The ECDH secret of a point `P = x*G` and a secret `k`
  depends only on the point `(x*k)*G`, hence is a function of `x*k`.
* Bytes are natural numbers; byte strings are `List Nat`.  Fallible library
  operations return `Option`/`Except`; a Rust panic (out-of-bounds index,
  `unwrap` on `None`) is modelled as an outer `Option.none`.
-/

set_option maxRecDepth 40000

instance {ε α : Type} [DecidableEq ε] [DecidableEq α] : DecidableEq (Except ε α) := fun x y =>
  match x, y with
  | .ok a, .ok b => if h : a = b then .isTrue (by rw [h]) else .isFalse (by simp [h])
  | .ok _, .error _ => .isFalse (by simp)
  | .error _, .ok _ => .isFalse (by simp)
  | .error e, .error f => if h : e = f then .isTrue (by rw [h]) else .isFalse (by simp [h])

/-- The order of the secp256k1 group (a 256-bit prime), the modulus of all
scalar arithmetic in the underlying library. -/
def nOrder : Nat :=
  115792089237316195423570985008687907852837564279074904382605163141518161494337

instance : NeZero nOrder := ⟨by decide⟩

/-- A secp256k1 scalar (the value of a 32-byte `SecretKey`). -/
abbrev Scalar := ZMod nOrder

/-- A public key `x*G`, represented by its discrete logarithm `x`.  The valid
public keys are exactly those with `x ≠ 0` (the identity is not a valid
point in compressed encoding). -/
abbrev PublicKeyM := Scalar

/-- A Pedersen commitment `v*H + r*G`, represented by its coefficient pair
over the independent generators: `v` is the value part (coefficient of `H`)
and `r` the blinding part (coefficient of `G`). -/
structure CommitmentM where
  v : Scalar
  r : Scalar
deriving DecidableEq

/-- Big-endian byte encoding of `n` in exactly `w` bytes (truncating high
bits, as a fixed-width writer does). -/
def toBytesBE : Nat → Nat → List Nat
  | 0, _ => []
  | w + 1, n => toBytesBE w (n / 256) ++ [n % 256]

/-- Big-endian byte decoding. -/
def fromBytesBE (bs : List Nat) : Nat := bs.foldl (fun a b => a * 256 + b) 0

/-- Read exactly `n` bytes from the front of a stream, failing at EOF
(models a grin `Reader`'s `read_fixed_bytes`). -/
def readBytes (n : Nat) (bs : List Nat) : Option (List Nat × List Nat) :=
  if n ≤ bs.length then some (bs.take n, bs.drop n) else none

/-- `SecretKey::from_slice`: accepts exactly the 32-byte big-endian encodings
of scalars in `[1, nOrder)`. -/
def secretKeyFromSlice (bs : List Nat) : Option Scalar :=
  let n := fromBytesBE bs
  if bs.length = 32 ∧ 0 < n ∧ n < nOrder then some (n : Scalar) else none

/-- `SecretKey::mul_assign` (`secp256k1_ec_privkey_tweak_mul`): fails when the
key or the tweak is invalid (zero).  The result of two nonzero scalars is
nonzero over the prime-order field; the model adds that (vacuous) check
explicitly since it does not carry a primality proof for `nOrder`. -/
def seckeyMulAssign (a e : Scalar) : Option Scalar :=
  if a = 0 ∨ e = 0 ∨ a * e = 0 then none else some (a * e)

/-- `SecretKey::add_assign` (`secp256k1_ec_privkey_tweak_add`): fails when the
resulting key would be zero. -/
def seckeyAddAssign (a e : Scalar) : Option Scalar :=
  if a + e = 0 then none else some (a + e)

/-- `PublicKey::from_secret_key`: fails on an invalid (zero) secret. -/
def pubkeyFromSecret (x : Scalar) : Option PublicKeyM :=
  if x = 0 then none else some x

/-- `PublicKey::mul_assign` (`secp256k1_ec_pubkey_tweak_mul`): fails when the
tweak is invalid (zero); on `P = x*G` and tweak `b` it yields `(x*b)*G`. -/
def pubkeyMulAssign (p : PublicKeyM) (b : Scalar) : Option PublicKeyM :=
  if b = 0 then none else some (p * b)

/-- `secp::commit` — build a Pedersen commitment `value*H + blind*G`
(src/secp.rs `commit`). -/
def commit (value : Nat) (blind : Scalar) : CommitmentM :=
  ⟨(value : Scalar), blind⟩

/-- `secp::add_excess` — add a commitment-to-zero with blinding `excess`,
producing `C + excess*G` (src/secp.rs `add_excess`; `commit_sum` adds
coefficients over the generators).  Fallible like the source: the inner
`secp.commit(0, excess)` fails when `excess*G` is the point at infinity
(`excess = 0`), and `commit_sum` fails when the resulting point is the
identity — in the coefficient representation, when both coefficients
vanish. -/
def add_excess (commitment : CommitmentM) (excess : Scalar) : Option CommitmentM :=
  if excess = 0 then none
  else if commitment.v = 0 ∧ commitment.r + excess = 0 then none
  else some ⟨commitment.v, commitment.r + excess⟩

/-- `secp::sub_value` — subtract `value*H` from a commitment
(src/secp.rs `sub_value`).  Fallible like the source: the inner
`secp.commit(value, ZERO_KEY)` fails when `value*H` is the point at
infinity (always at `value = 0`), and `commit_sum` fails when the
difference is the identity point. -/
def sub_value (commitment : CommitmentM) (value : Nat) : Option CommitmentM :=
  if (value : Scalar) = 0 then none
  else if commitment.v - (value : Scalar) = 0 ∧ commitment.r = 0 then none
  else some ⟨commitment.v - (value : Scalar), commitment.r⟩

/-- `commit_blind(k1, k2) = k1*H + k2*G` (library call used by ComSig). -/
def commit_blind (k1 k2 : Scalar) : CommitmentM :=
  ⟨k1, k2⟩

/-- Model of the 33-byte compressed point encoding (`ser_vec` of a
`PublicKey`): an injective byte encoding of the point.  The model uses a
tag byte followed by the 32-byte big-endian discrete logarithm. -/
def serPubkey (p : PublicKeyM) : List Nat :=
  2 :: toBytesBE 32 p.val

/-- Model of the 33-byte commitment encoding (`Commitment.0`): an injective
byte encoding of the point; the model writes both generator coefficients. -/
def serCommit (c : CommitmentM) : List Nat :=
  9 :: (toBytesBE 32 c.v.val ++ toBytesBE 32 c.r.val)

/-- The cryptographic black boxes used by the core, as oracle parameters:
hash functions, the ChaCha20 keystream (a function from key and stream
position to keystream byte), the ECDH shared secret (a function of the
product of discrete logarithms, since `ECDH(x*G, k)` depends only on
`(x*k)*G`), and bulletproof verification. -/
structure CryptoOracles where
  sha256 : List Nat → List Nat
  blake2b : List Nat → List Nat
  hmacSha256 : List Nat → List Nat → List Nat
  chacha20 : List Nat → Nat → Nat
  ecdh : Scalar → List Nat
  verifyBulletProof : CommitmentM → List Nat → Bool

/-- The ASCII bytes of "MWIXNET", the HMAC key for stream-key derivation. -/
def mwixnetKey : List Nat := [77, 87, 73, 88, 78, 69, 84]

/-- `new_stream_cipher` (src/onion.rs): derive the ChaCha20 key as
HMAC-SHA256 over the first 32 shared-secret bytes with key "MWIXNET", and
return the resulting keystream (position → byte).  The fixed nonce
"NONCE1234567" is part of the `chacha20` oracle.  `Hmac::new_from_slice`
accepts any key length, so the `InvalidKeyLength` branch of the source is
unreachable and the model is total. -/
def newStreamCipher (oracle : CryptoOracles) (sharedSecret : List Nat) : Nat → Nat :=
  oracle.chacha20 (oracle.hmacSha256 mwixnetKey (sharedSecret.take 32))

/-- `cipher.apply_keystream` on one buffer, starting at stream position
`pos`: XOR each byte with the next keystream byte. -/
def applyKeystream (ks : Nat → Nat) : Nat → List Nat → List Nat
  | _, [] => []
  | pos, b :: bs => (b ^^^ ks pos) :: applyKeystream ks (pos + 1) bs

/-- Apply one continuous keystream to a sequence of buffers in ascending
index order, the stream position advancing across buffers (the single
`cipher` advanced over `enc_payloads` in the source). -/
def applyKeystreamAll (ks : Nat → Nat) : Nat → List (List Nat) → List (List Nat)
  | _, [] => []
  | pos, p :: ps => applyKeystream ks pos p :: applyKeystreamAll ks (pos + p.length) ps

/-- Error type for creating and peeling onions (src/onion.rs `OnionError`;
library error payloads are dropped). -/
inductive OnionError where
  | InvalidKeyLength
  | SerializationError
  | DeserializationError
  | CalcBlindError
  | CalcPubKeyError
  | CalcCommitError
deriving DecidableEq

/-- Modelled from the spec: the per-hop `Payload` lives in src/types.rs,
which is not part of the provided sources.  Per spec §3: an additive excess
(`SecretKey`), an unsigned fee carried as a 32-bit fee-fields value on the
wire, and an optional rangeproof (opaque bytes, present only on the final
hop). -/
structure PayloadM where
  excess : Scalar
  fee : Nat
  rangeproof : Option (List Nat)
deriving DecidableEq

/-- Modelled from the spec: `Payload` binary encoding (spec §4.2): `excess`
(32 bytes) ‖ `fee` (u32 fee-fields) ‖ rangeproof-optional (u8 tag 0/1; when
present the proof bytes are length-prefixed as the library writer does). -/
def PayloadM.serialize (p : PayloadM) : List Nat :=
  toBytesBE 32 p.excess.val ++ toBytesBE 4 p.fee ++
    (match p.rangeproof with
      | none => [0]
      | some rp => 1 :: (toBytesBE 8 rp.length ++ rp))

/-- Modelled from the spec: `Payload` binary decoding, the inverse reader of
`PayloadM.serialize`; the excess is read through `SecretKey::from_slice`. -/
def PayloadM.deserialize (bs : List Nat) : Option PayloadM := do
  let (exB, r1) ← readBytes 32 bs
  let excess ← secretKeyFromSlice exB
  let (feeB, r2) ← readBytes 4 r1
  let (tagB, r3) ← readBytes 1 r2
  match tagB with
  | [0] => pure ⟨excess, fromBytesBE feeB, none⟩
  | [1] => do
      let (lenB, r4) ← readBytes 8 r3
      let (rp, _) ← readBytes (fromBytesBE lenB) r4
      pure ⟨excess, fromBytesBE feeB, some rp⟩
  | _ => none

/-- A data packet with layers of encryption (src/onion.rs `Onion`). -/
structure OnionM where
  ephemeral_pubkey : PublicKeyM
  commit : CommitmentM
  enc_payloads : List (List Nat)
deriving DecidableEq

/-- `calc_blinding_factor` (src/onion.rs): the SHA-256 of the serialized
ephemeral public key followed by the first 32 shared-secret bytes,
interpreted as a secret key (`from_slice` fails outside `[1, nOrder)`,
surfacing `CalcBlindError`). -/
def calc_blinding_factor (oracle : CryptoOracles) (sharedSecret : List Nat)
    (ephemeralPubkey : PublicKeyM) : Except OnionError Scalar :=
  match secretKeyFromSlice
      (oracle.sha256 (serPubkey ephemeralPubkey ++ sharedSecret.take 32)) with
  | some blind => .ok blind
  | none => .error .CalcBlindError

/-- `Onion::peel_layer` (src/onion.rs): peel a single layer, returning the
decrypted payload and the peeled onion.  The source indexes
`enc_payloads[0]` without a guard; the outer `Option` is `none` exactly when
that index panics (empty payload list). -/
def OnionM.peel_layer (oracle : CryptoOracles) (o : OnionM) (secretKey : Scalar) :
    Option (Except OnionError (PayloadM × OnionM)) :=
  let sharedSecret := oracle.ecdh (o.ephemeral_pubkey * secretKey)
  let ks := newStreamCipher oracle sharedSecret
  match o.enc_payloads with
  | [] => none
  | p0 :: rest =>
    some (do
      let decrypted := applyKeystream ks 0 p0
      let payload ← match PayloadM.deserialize decrypted with
        | some p => Except.ok p
        | none => Except.error OnionError.DeserializationError
      let encPayloads := applyKeystreamAll ks p0.length rest
      let blindingFactor ← calc_blinding_factor oracle sharedSecret o.ephemeral_pubkey
      let ephemeralPubkey ← match pubkeyMulAssign o.ephemeral_pubkey blindingFactor with
        | some p => Except.ok p
        | none => Except.error OnionError.CalcPubKeyError
      let c1 ← match add_excess o.commit payload.excess with
        | some c => Except.ok c
        | none => Except.error OnionError.CalcCommitError
      let c2 ← match sub_value c1 payload.fee with
        | some c => Except.ok c
        | none => Except.error OnionError.CalcCommitError
      Except.ok (payload, OnionM.mk ephemeralPubkey c2 encPayloads))

/-- `Onion::serialize` / the `Writeable` instance (src/onion.rs): ephemeral
pubkey, commitment, payload count as u64, then each payload length-prefixed
with a u64. -/
def OnionM.serialize (o : OnionM) : List Nat :=
  serPubkey o.ephemeral_pubkey ++ serCommit o.commit ++
    toBytesBE 8 o.enc_payloads.length ++
    (o.enc_payloads.map (fun p => toBytesBE 8 p.length ++ p)).flatten

/-- A hop of the onion route (src/onion.rs `test_util::Hop`). -/
structure HopM where
  pubkey : PublicKeyM
  payload : PayloadM

/-- First loop of `create_onion` (src/onion.rs `test_util`): walk the hops
threading the ephemeral key, collecting each hop's ECDH shared secret and
serialized payload.  Per iteration: derive the shared secret from the hop
public key and current ephemeral key, the blinding factor from the shared
secret and current ephemeral public key, then multiply the ephemeral key by
the blinding factor. -/
def hopChain (oracle : CryptoOracles) : Scalar → List HopM →
    Except OnionError (List (List Nat × List Nat))
  | _, [] => .ok []
  | ephemeralKey, hop :: hops => do
    let sharedSecret := oracle.ecdh (hop.pubkey * ephemeralKey)
    let ephemeralPubkey ← match pubkeyFromSecret ephemeralKey with
      | some p => Except.ok p
      | none => Except.error OnionError.CalcPubKeyError
    let blindingFactor ← calc_blinding_factor oracle sharedSecret ephemeralPubkey
    let nextKey ← match seckeyMulAssign ephemeralKey blindingFactor with
      | some k => Except.ok k
      | none => Except.error OnionError.CalcPubKeyError
    let rest ← hopChain oracle nextKey hops
    .ok ((sharedSecret, hop.payload.serialize) :: rest)

/-- Second loop of `create_onion`: for hop indices in descending order,
re-initialize the cipher from that hop's shared secret and apply its
keystream to all payloads from that index on (so the outermost hop's stream
is applied last, over the whole list). -/
def encryptAll (oracle : CryptoOracles) : List (List Nat × List Nat) → List (List Nat)
  | [] => []
  | (sharedSecret, payload) :: rest =>
    applyKeystreamAll (newStreamCipher oracle sharedSecret) 0
      (payload :: encryptAll oracle rest)

/-- `create_onion` (src/onion.rs `test_util`): build an onion for the
commitment, encrypting one payload per hop.  The random session key is an
explicit argument. -/
def create_onion (oracle : CryptoOracles) (commitment : CommitmentM)
    (hops : List HopM) (sessionKey : Scalar) : Except OnionError OnionM := do
  let chain ← hopChain oracle sessionKey hops
  let ephemeralPubkey ← match pubkeyFromSecret sessionKey with
    | some p => Except.ok p
    | none => Except.error OnionError.CalcPubKeyError
  .ok ⟨ephemeralPubkey, commitment, encryptAll oracle chain⟩

/-- Peel an onion once per secret in the given list, collecting the payload
of each peel and the final onion; `none` when any peel panics or fails. -/
def peelAll (oracle : CryptoOracles) : OnionM → List Scalar →
    Option (List PayloadM × OnionM)
  | o, [] => some ([], o)
  | o, k :: ks =>
    match o.peel_layer oracle k with
    | some (.ok (p, o2)) =>
      match peelAll oracle o2 ks with
      | some (ps, oFinal) => some (p :: ps, oFinal)
      | none => none
    | _ => none

/-- Error types for commitment signatures (src/secp.rs `ComSigError`). -/
inductive ComSigError where
  | InvalidSig
  | Secp256k1zkp
deriving DecidableEq

/-- A generalized Schnorr signature with a Pedersen commitment value and
blinding factors as the keys (src/secp.rs `ComSignature`). -/
structure ComSignatureM where
  pub_nonce : CommitmentM
  s : Scalar
  t : Scalar
deriving DecidableEq

/-- `ComSignature::calc_challenge` (src/secp.rs): Blake2b-256 over the raw
commitment bytes, nonce-commitment bytes and message, read as a secret key
(`from_slice` failures surface as library errors). -/
def calc_challenge (oracle : CryptoOracles) (commitment nonceCommit : CommitmentM)
    (msg : List Nat) : Except ComSigError Scalar :=
  match secretKeyFromSlice
      (oracle.blake2b (serCommit commitment ++ serCommit nonceCommit ++ msg)) with
  | some e => .ok e
  | none => .error .Secp256k1zkp

/-- `ComSignature::sign` (src/secp.rs): the random nonce pair `(k1, k2)` is
explicit.  The amount is written as a 32-byte big-endian scalar and read
back through `from_slice`; `s = k_amt*e + k1` and `t = blind*e + k2` via
`mul_assign`/`add_assign`. -/
def ComSignatureM.sign (oracle : CryptoOracles) (amount : Nat) (blind : Scalar)
    (msg : List Nat) (k1 k2 : Scalar) : Except ComSigError ComSignatureM := do
  let kAmt ← match secretKeyFromSlice (toBytesBE 32 amount) with
    | some k => Except.ok k
    | none => Except.error ComSigError.Secp256k1zkp
  let commitment := commit amount blind
  let nonceCommitment := commit_blind k1 k2
  let e ← calc_challenge oracle commitment nonceCommitment msg
  let s1 ← match seckeyMulAssign kAmt e with
    | some s => Except.ok s
    | none => Except.error ComSigError.Secp256k1zkp
  let s ← match seckeyAddAssign s1 k1 with
    | some s => Except.ok s
    | none => Except.error ComSigError.Secp256k1zkp
  let t1 ← match seckeyMulAssign blind e with
    | some t => Except.ok t
    | none => Except.error ComSigError.Secp256k1zkp
  let t ← match seckeyAddAssign t1 k2 with
    | some t => Except.ok t
    | none => Except.error ComSigError.Secp256k1zkp
  .ok ⟨nonceCommitment, s, t⟩

/-- `ComSignature::verify` (src/secp.rs): recompute the challenge, check
`commit_blind(s, t) = C*e + R`.  Multiplying the commitment point by the
challenge (`mul_assign`) fails on a zero challenge. -/
def ComSignatureM.verify (oracle : CryptoOracles) (sig : ComSignatureM)
    (commitment : CommitmentM) (msg : List Nat) : Except ComSigError Unit := do
  let s1 := commit_blind sig.s sig.t
  let e ← calc_challenge oracle commitment sig.pub_nonce msg
  if e = 0 then .error .Secp256k1zkp else
  let ce : CommitmentM := ⟨commitment.v * e, commitment.r * e⟩
  let s2 : CommitmentM := ⟨ce.v + sig.pub_nonce.v, ce.r + sig.pub_nonce.r⟩
  if s1 ≠ s2 then .error .InvalidSig else .ok ()

/-- `OutputFeatures` of a transaction input/output (grin-core). -/
inductive OutputFeaturesM where
  | Plain
  | Coinbase
deriving DecidableEq

/-- A transaction input: features plus the spent commitment (grin-core
`Input`). -/
structure InputM where
  features : OutputFeaturesM
  commit : CommitmentM
deriving DecidableEq

/-- Swap statuses (src/store.rs `SwapStatus`); kernel/block hashes are
32-byte identifiers. -/
inductive SwapStatusM where
  | Unprocessed
  | InProcess (kernel_hash : List Nat)
  | Completed (kernel_hash : List Nat) (block_hash : List Nat)
deriving DecidableEq

/-- Data needed to swap a single output (src/store.rs `SwapData`). -/
structure SwapDataM where
  excess : Scalar
  output_commit : CommitmentM
  rangeproof : Option (List Nat)
  input : InputM
  fee : Nat
  onion : OnionM
  status : SwapStatusM
deriving DecidableEq

/-- Store error types (src/store.rs `StoreError`; lmdb/ser payloads
dropped). -/
inductive StoreError where
  | AlreadyExists (commit : CommitmentM)
  | OpenError
  | SerializationError
  | ReadError
  | WriteError
deriving DecidableEq

/-- Byte encoding of `OutputFeatures` (grin-core: Plain = 0, Coinbase = 1). -/
def serFeatures : OutputFeaturesM → Nat
  | .Plain => 0
  | .Coinbase => 1

/-- `Input` writer (grin-core): the features byte then the commitment. -/
def serInput (i : InputM) : List Nat :=
  serFeatures i.features :: serCommit i.commit

/-- Modelled from the spec: `write_optional` lives in src/types.rs, which is
not part of the provided sources.  Per spec §4.4, an optional value is a u8
tag (0 absent, 1 present) followed by the value; proof bytes are written
with the library's length-prefixed byte writer. -/
def serOptBytes : Option (List Nat) → List Nat
  | none => [0]
  | some bs => 1 :: (toBytesBE 8 bs.length ++ bs)

/-- `SwapStatus` writer (src/store.rs): variant tag 0/1/2 followed by the
32-byte hashes. -/
def serStatus : SwapStatusM → List Nat
  | .Unprocessed => [0]
  | .InProcess kh => 1 :: kh
  | .Completed kh bh => 2 :: (kh ++ bh)

/-- `SwapData` writer (src/store.rs): version byte, excess (32 bytes),
output commitment, optional rangeproof, input, fee (u64), onion, status. -/
def serSwapData (s : SwapDataM) : List Nat :=
  0 :: (toBytesBE 32 s.excess.val ++ serCommit s.output_commit ++
    serOptBytes s.rangeproof ++ serInput s.input ++ toBytesBE 8 s.fee ++
    s.onion.serialize ++ serStatus s.status)

/-- `Commitment::read` (grin-core): reads the fixed-width commitment bytes
without curve validation. -/
def readCommit (bs : List Nat) : Option (CommitmentM × List Nat) := do
  let (cb, rest) ← readBytes 65 bs
  let vb := (cb.drop 1).take 32
  let rb := (cb.drop 1).drop 32
  pure (⟨(fromBytesBE vb : Scalar), (fromBytesBE rb : Scalar)⟩, rest)

/-- `PublicKey::read` (grin-core): parses the compressed point encoding,
rejecting invalid points (bad tag, out-of-range or identity). -/
def readPubkey (bs : List Nat) : Option (PublicKeyM × List Nat) := do
  let (pb, rest) ← readBytes 33 bs
  match pb with
  | tag :: db =>
    let n := fromBytesBE db
    if tag = 2 ∧ 0 < n ∧ n < nOrder then pure ((n : Scalar), rest) else none
  | [] => none

/-- `Onion::read` (src/onion.rs): ephemeral pubkey, commitment, u64 payload
count, then each payload length-prefixed with a u64. -/
def readOnionPayloads (fuel : Nat) (bs : List Nat) :
    Option (List (List Nat) × List Nat) :=
  match fuel with
  | 0 => some ([], bs)
  | n + 1 => do
    let (lenB, r1) ← readBytes 8 bs
    let (p, r2) ← readBytes (fromBytesBE lenB) r1
    let (ps, rest) ← readOnionPayloads n r2
    pure (p :: ps, rest)

/-- `Onion::read` (src/onion.rs). -/
def readOnion (bs : List Nat) : Option (OnionM × List Nat) := do
  let (pk, r1) ← readPubkey bs
  let (c, r2) ← readCommit r1
  let (cntB, r3) ← readBytes 8 r2
  let (ps, rest) ← readOnionPayloads (fromBytesBE cntB) r3
  pure (⟨pk, c, ps⟩, rest)

/-- Modelled from the spec: `read_optional` (src/types.rs, not in the
provided sources) — inverse of `serOptBytes`. -/
def readOptBytes (bs : List Nat) : Option (Option (List Nat) × List Nat) := do
  let (tagB, r1) ← readBytes 1 bs
  match tagB with
  | [0] => pure (none, r1)
  | [1] => do
      let (lenB, r2) ← readBytes 8 r1
      let (v, rest) ← readBytes (fromBytesBE lenB) r2
      pure (some v, rest)
  | _ => none

/-- `Input::read` (grin-core): features byte (rejecting unknown tags) then
the commitment. -/
def readInput (bs : List Nat) : Option (InputM × List Nat) := do
  let (fB, r1) ← readBytes 1 bs
  let features ← match fB with
    | [0] => some OutputFeaturesM.Plain
    | [1] => some OutputFeaturesM.Coinbase
    | _ => none
  let (c, rest) ← readCommit r1
  pure (⟨features, c⟩, rest)

/-- `SwapStatus::read` (src/store.rs): variant tag 0/1/2, then the 32-byte
hashes; any other tag is corrupted data. -/
def readStatus (bs : List Nat) : Option (SwapStatusM × List Nat) := do
  let (tagB, r1) ← readBytes 1 bs
  match tagB with
  | [0] => pure (SwapStatusM.Unprocessed, r1)
  | [1] => do
      let (kh, rest) ← readBytes 32 r1
      pure (SwapStatusM.InProcess kh, rest)
  | [2] => do
      let (kh, r2) ← readBytes 32 r1
      let (bh, rest) ← readBytes 32 r2
      pure (SwapStatusM.Completed kh bh, rest)
  | _ => none

/-- `SwapData::read` (src/store.rs): rejects any version byte other than the
current version 0 (`UnsupportedProtocolVersion`), then reads the fields. -/
def readSwapData (bs : List Nat) : Option SwapDataM := do
  let (verB, r1) ← readBytes 1 bs
  if verB ≠ [0] then none else do
  let (exB, r2) ← readBytes 32 r1
  let excess ← secretKeyFromSlice exB
  let (outC, r3) ← readCommit r2
  let (rp, r4) ← readOptBytes r3
  let (inp, r5) ← readInput r4
  let (feeB, r6) ← readBytes 8 r5
  let (onion, r7) ← readOnion r6
  let (status, _) ← readStatus r7
  pure ⟨excess, outC, rp, inp, fromBytesBE feeB, onion, status⟩

/-- Lexicographic (memcmp-then-length) order on byte strings, the lmdb key
order. -/
def bytesLt : List Nat → List Nat → Bool
  | [], [] => false
  | [], _ :: _ => true
  | _ :: _, [] => false
  | a :: as_, b :: bs => if a < b then true else if b < a then false else bytesLt as_ bs

/-- The embedded key-value database: an association list of byte keys and
byte values kept sorted in ascending key order (lmdb iterates keys in this
order). -/
abbrev DBModel := List (List Nat × List Nat)

/-- `batch.put`: insert or replace, keeping keys sorted. -/
def dbPut (k v : List Nat) : DBModel → DBModel
  | [] => [(k, v)]
  | (k2, v2) :: rest =>
    if k = k2 then (k, v) :: rest
    else if bytesLt k k2 then (k, v) :: (k2, v2) :: rest
    else (k2, v2) :: dbPut k v rest

/-- `batch.exists`. -/
def dbExists (k : List Nat) (db : DBModel) : Bool :=
  db.any (fun kv => kv.1 = k)

/-- `db.get`. -/
def dbGet (k : List Nat) (db : DBModel) : Option (List Nat) :=
  (db.find? (fun kv => kv.1 = k)).map (·.2)

/-- `store::to_key`: prefix byte followed by the raw key bytes. -/
def toKey (prefixByte : Nat) (k : List Nat) : List Nat := prefixByte :: k

/-- The ASCII byte of 'S', the swap record key prefix (src/store.rs). -/
def swapPrefix : Nat := 83

/-- `SwapStore::write` (src/store.rs): a single write batch; when
`overwrite` is false and the key exists it commits nothing and reports
`false`, otherwise it puts and commits. -/
def storeWrite (prefixByte : Nat) (k v : List Nat) (overwrite : Bool)
    (db : DBModel) : Bool × DBModel :=
  if !overwrite ∧ dbExists (toKey prefixByte k) db then (false, db)
  else (true, dbPut (toKey prefixByte k) v db)

/-- `SwapStore::save_swap` (src/store.rs): serialize the record, write it
under its input commitment; a non-overwriting write of an existing key
surfaces `AlreadyExists`. -/
def save_swap (s : SwapDataM) (overwrite : Bool) (db : DBModel) :
    Except StoreError Unit × DBModel :=
  let result := storeWrite swapPrefix (serCommit s.input.commit) (serSwapData s) overwrite db
  if result.1 then (.ok (), result.2) else (.error (.AlreadyExists s.input.commit), result.2)

/-- `SwapStore::get_swap` / `read` (src/store.rs): a missing key surfaces a
read error (`option_to_not_found`), as does a value that fails to
deserialize. -/
def get_swap (inputCommit : CommitmentM) (db : DBModel) : Except StoreError SwapDataM :=
  match dbGet (toKey swapPrefix (serCommit inputCommit)) db with
  | none => .error .ReadError
  | some bytes =>
    match readSwapData bytes with
    | some s => .ok s
    | none => .error .ReadError

/-- `SwapStore::swap_exists` (src/store.rs). -/
def swap_exists (inputCommit : CommitmentM) (db : DBModel) : Bool :=
  dbExists (toKey swapPrefix (serCommit inputCommit)) db

/-- `SwapStore::swaps_iter` (src/store.rs): iterate the records under the
swap prefix in ascending key order, deserializing each value. -/
def swaps_iter (db : DBModel) : List SwapDataM :=
  db.filterMap (fun kv =>
    if kv.1.head? = some swapPrefix then readSwapData kv.2 else none)

/-- Swap error types (src/server.rs `SwapError`). -/
inductive SwapError where
  | InvalidPayloadLength (expected found : Nat)
  | InvalidComSignature
  | InvalidRangeproof
  | MissingRangeproof
  | CoinNotFound (commit : CommitmentM)
  | AlreadySwapped (commit : CommitmentM)
  | PeelOnionFailure (e : OnionError)
  | FeeTooLow (minimum_fee actual_fee : Nat)
  | StoreFailure (e : StoreError)
  | UnknownError (msg : String)
deriving DecidableEq

/-- grin-core consensus `BLOCK_INPUT_WEIGHT`. -/
def BLOCK_INPUT_WEIGHT : Nat := 1

/-- grin-core consensus `BLOCK_OUTPUT_WEIGHT`. -/
def BLOCK_OUTPUT_WEIGHT : Nat := 21

/-- grin-core consensus `BLOCK_KERNEL_WEIGHT`. -/
def BLOCK_KERNEL_WEIGHT : Nat := 3

/-- grin-core `global::DEFAULT_ACCEPT_FEE_BASE` (half a milligrin per weight
unit). -/
def DEFAULT_ACCEPT_FEE_BASE : Nat := 500000

/-- grin-core `TransactionBody::weight_by_iok`: total weight of a body with
the given numbers of inputs, outputs and kernels. -/
def weight_by_iok (numInputs numOutputs numKernels : Nat) : Nat :=
  numInputs * BLOCK_INPUT_WEIGHT + numOutputs * BLOCK_OUTPUT_WEIGHT +
    numKernels * BLOCK_KERNEL_WEIGHT

/-- `ServerImpl::get_fee_base` (src/server.rs): the default accept fee
base. -/
def get_fee_base : Nat := DEFAULT_ACCEPT_FEE_BASE

/-- `ServerImpl::get_minimum_swap_fee` (src/server.rs): enough fee for the
server's kernel, one input and its output. -/
def get_minimum_swap_fee : Nat :=
  weight_by_iok 1 1 1 * get_fee_base

/-- The environment of the swap admission path: the server's mix key, the
crypto oracles, and the external node and bulletproof-verifier
collaborators.  `build_input` models `node::build_input` over the node RPC:
outer `none` is a node transport error (surfacing `UnknownError`), inner
`none` means the commitment is not unspent. -/
structure SwapEnv where
  oracle : CryptoOracles
  server_key : Scalar
  build_input : CommitmentM → Option (Option InputM)

/-- `ServerImpl::swap` (src/server.rs): shape check, ComSig verification
over the serialized onion, UTXO lookup, peel, fee floor, rangeproof
verification, then persist with `overwrite = false`.  Returns the result
together with the resulting store; the outer `Option` is `none` on a panic
(unreachable here: the peel only runs once the payload list has length 1). -/
def ServerImpl.swap (env : SwapEnv) (db : DBModel) (onion : OnionM)
    (comsig : ComSignatureM) : Option (Except SwapError Unit × DBModel) :=
  if onion.enc_payloads.length ≠ 1 then
    some (.error (.InvalidPayloadLength 1 onion.enc_payloads.length), db)
  else
    let serializedOnion := onion.serialize
    match comsig.verify env.oracle onion.commit serializedOnion with
    | .error _ => some (.error .InvalidComSignature, db)
    | .ok () =>
      match env.build_input onion.commit with
      | none => some (.error (.UnknownError "node request failed"), db)
      | some none => some (.error (.CoinNotFound onion.commit), db)
      | some (some input) =>
        match onion.peel_layer env.oracle env.server_key with
        | none => none
        | some (.error e) => some (.error (.PeelOnionFailure e), db)
        | some (.ok (payload, peeledOnion)) =>
          let fee := payload.fee
          if fee < get_minimum_swap_fee then
            some (.error (.FeeTooLow get_minimum_swap_fee fee), db)
          else
            match payload.rangeproof with
            | none => some (.error .MissingRangeproof, db)
            | some r =>
              if env.oracle.verifyBulletProof peeledOnion.commit r then
                let record : SwapDataM :=
                  ⟨payload.excess, peeledOnion.commit, payload.rangeproof,
                    input, fee, peeledOnion, .Unprocessed⟩
                match save_swap record false db with
                | (.ok (), db2) => some (.ok (), db2)
                | (.error (.AlreadyExists _), db2) =>
                  some (.error (.AlreadySwapped onion.commit), db2)
                | (.error e, db2) => some (.error (.StoreFailure e), db2)
              else some (.error .InvalidRangeproof, db)

/-- The status filter of the round's candidate selection (src/server.rs
lines 169-172): true exactly on `Unprocessed`. -/
def is_unprocessed : SwapStatusM → Bool
  | .Unprocessed => true
  | _ => false

/-- Accumulator form of itertools `unique_by`: keep each element whose key
has not been seen before, preserving order. -/
def uniqueByGo {α β : Type} [DecidableEq β] (f : α → β) :
    List β → List α → List α
  | _, [] => []
  | seen, x :: xs =>
    if f x ∈ seen then uniqueByGo f seen xs
    else x :: uniqueByGo f (f x :: seen) xs

/-- itertools `unique_by`: de-duplicate by key, keeping the first
occurrence. -/
def uniqueBy {α β : Type} [DecidableEq β] (f : α → β) (l : List α) : List α :=
  uniqueByGo f [] l

/-- A transaction as consumed by the round executor: only its kernels are
inspected (for the kernel hash). -/
structure TxM where
  kernels : List (List Nat)
deriving DecidableEq

/-- The external collaborators of the round executor: the node (chain
height, coinbase-maturity-aware spendability, UTXO membership, transaction
posting), the wallet (transaction assembly) and the kernel hash.  Outer
`none` on node/wallet calls is an RPC failure. -/
structure RoundEnv where
  get_chain_height : Option Nat
  is_spendable : CommitmentM → Nat → Option Bool
  is_unspent : CommitmentM → Option Bool
  assemble_tx : List InputM → List (OutputFeaturesM × CommitmentM × List Nat) →
    Nat → Nat → List Scalar → Option TxM
  post_tx : TxM → Option Unit
  kernel_hash : List Nat → List Nat

/-- The candidate-selection pipeline of `ServerImpl::execute_round`
(src/server.rs lines 166-177), applied to the iterated swap records in
store order: de-duplicate by output commitment keeping the first
occurrence, then keep records that are `Unprocessed`, whose input is
spendable at the next block height (node errors defaulting to `false`), and
whose output commitment is not currently unspent (node errors defaulting to
`true`). -/
def select_candidates (env : RoundEnv) (nextBlockHeight : Nat)
    (swaps : List SwapDataM) : List SwapDataM :=
  (((uniqueBy (fun s => s.output_commit) swaps).filter
      (fun s => is_unprocessed s.status)).filter
    (fun s => (env.is_spendable s.input.commit nextBlockHeight).getD false)).filter
      (fun s => !((env.is_unspent s.output_commit).getD true))

/-- The output-building step of `execute_round`: each selected record's
stored rangeproof is unwrapped; `none` models the panic when a selected
record carries no rangeproof. -/
def buildOutputs : List SwapDataM →
    Option (List (OutputFeaturesM × CommitmentM × List Nat))
  | [] => some []
  | s :: rest =>
    match s.rangeproof with
    | none => none
    | some rp =>
      match buildOutputs rest with
      | none => none
      | some outs => some ((OutputFeaturesM.Plain, s.output_commit, rp) :: outs)

/-- The status-update loop of `execute_round`: set each candidate's status
to `InProcess` with the round's kernel hash and save with
`overwrite = true`; a store error aborts the loop. -/
def updateStatuses (kernelHash : List Nat) : List SwapDataM → DBModel →
    Except StoreError DBModel
  | [], db => .ok db
  | s :: rest, db =>
    match save_swap { s with status := .InProcess kernelHash } true db with
    | (.ok (), db2) => updateStatuses kernelHash rest db2
    | (.error e, _) => .error e

/-- `ServerImpl::execute_round` (src/server.rs): select still-spendable
candidates, assemble and post a single transaction, then mark each
candidate in-process.  Result `none` models a panic (the rangeproof
`unwrap` while building outputs, or `kernels().first().unwrap()` on a
kernel-less transaction); `Except.error` models the `Box<dyn Error>`
returns. -/
def ServerImpl.execute_round (env : RoundEnv) (db : DBModel) :
    Option (Except String (Option TxM × DBModel)) :=
  match env.get_chain_height with
  | none => some (.error "node request failed")
  | some h =>
    let nextBlockHeight := h + 1
    let spendable := select_candidates env nextBlockHeight (swaps_iter db)
    if spendable.length = 0 then some (.ok (none, db))
    else
      let totalFee := (spendable.map (fun s => s.fee)).sum
      let inputs := spendable.map (fun s => s.input)
      match buildOutputs spendable with
      | none => none
      | some outputs =>
        let excesses := spendable.map (fun s => s.excess)
        match env.assemble_tx inputs outputs get_fee_base totalFee excesses with
        | none => some (.error "wallet request failed")
        | some tx =>
          match env.post_tx tx with
          | none => some (.error "node post failed")
          | some () =>
            match tx.kernels.head? with
            | none => none
            | some k0 =>
              match updateStatuses (env.kernel_hash k0) spendable db with
              | .ok db2 => some (.ok (some tx, db2))
              | .error e =>
                some (.error (match e with
                  | .AlreadyExists _ => "store: already exists"
                  | _ => "store error"))

/-- The candidate set as described by the specification's selection clause:
records satisfying the status, spendability and output-unspent conditions,
de-duplicated by output commitment keeping the first occurrence in store
order among the satisfying records.  (Defined from the spec's words, for
comparison with `select_candidates` which is translated from the source.) -/
def spec_candidates (env : RoundEnv) (nextBlockHeight : Nat)
    (swaps : List SwapDataM) : List SwapDataM :=
  uniqueBy (fun s => s.output_commit)
    (swaps.filter (fun s =>
      is_unprocessed s.status &&
      (env.is_spendable s.input.commit nextBlockHeight).getD false &&
      !((env.is_unspent s.output_commit).getD true)))

/-- Well-formedness of an optional rangeproof as a Rust value: the proof
byte string fits the length prefix of the wire form. -/
def rp_wf : Option (List Nat) → Prop
  | none => True
  | some rp => rp.length < 2 ^ 64

instance (o : Option (List Nat)) : Decidable (rp_wf o) := by
  unfold rp_wf; cases o <;> infer_instance

/-- Well-formedness of a payload as a Rust value: the excess is a valid
(nonzero) secret key, the fee fits the 32-bit wire form
(`FeeFields::from(u32)`), and the rangeproof fits its length prefix. -/
def payload_wf (p : PayloadM) : Prop :=
  p.excess ≠ 0 ∧ p.fee < 2 ^ 32 ∧ rp_wf p.rangeproof

instance (p : PayloadM) : Decidable (payload_wf p) := by
  unfold payload_wf; infer_instance

/-- Well-formedness of an onion as a Rust value: the ephemeral key is a
valid (non-identity) point and the list lengths fit their u64 prefixes. -/
def onion_wf (o : OnionM) : Prop :=
  o.ephemeral_pubkey ≠ 0 ∧ o.enc_payloads.length < 2 ^ 64 ∧
    ∀ p ∈ o.enc_payloads, p.length < 2 ^ 64

instance (o : OnionM) : Decidable (onion_wf o) := by
  unfold onion_wf; infer_instance

/-- Well-formedness of a status as a Rust value: kernel and block hashes
are 32 bytes. -/
def status_wf : SwapStatusM → Prop
  | .Unprocessed => True
  | .InProcess kh => kh.length = 32
  | .Completed kh bh => kh.length = 32 ∧ bh.length = 32

instance (st : SwapStatusM) : Decidable (status_wf st) := by
  unfold status_wf; cases st <;> infer_instance

/-- Well-formedness of a swap record as a Rust value (the invariants the
Rust types carry and the model widens). -/
def swap_wf (s : SwapDataM) : Prop :=
  s.excess ≠ 0 ∧ s.fee < 2 ^ 64 ∧ rp_wf s.rangeproof ∧ onion_wf s.onion ∧
    status_wf s.status

instance (s : SwapDataM) : Decidable (swap_wf s) := by
  unfold swap_wf; infer_instance

/-- A concrete oracle instantiation used to evaluate the model on explicit
inputs: hashes are the 32-byte encoding of 1 (so every derived blinding
factor and challenge is the scalar 1), the keystream is all zeroes (XOR is
the identity), and bulletproof verification accepts. -/
def testOracle : CryptoOracles where
  sha256 := fun _ => toBytesBE 32 1
  blake2b := fun _ => toBytesBE 32 1
  hmacSha256 := fun _ _ => []
  chacha20 := fun _ _ => 0
  ecdh := fun _ => []
  verifyBulletProof := fun _ _ => true

/-- A concrete single-hop route: hop key `2*G`, excess 1, fee 5, with a
(model) rangeproof. -/
def testHop : HopM :=
  ⟨2, ⟨1, 5, some [4, 2]⟩⟩

/-- The onion `create_onion` produces for `testHop` from commitment
`⟨7, 11⟩` and session key 3 under `testOracle`. -/
def testOnion : OnionM :=
  ⟨3, ⟨7, 11⟩, [PayloadM.serialize ⟨1, 5, some [4, 2]⟩]⟩

/-- A concrete low-fee payload (fee 1000000, below the swap minimum). -/
def lowFeePayload : PayloadM :=
  ⟨1, 1000000, some [4, 2]⟩

/-- An onion carrying `lowFeePayload` in the clear under `testOracle`'s
zero keystream. -/
def lowFeeOnion : OnionM :=
  ⟨3, ⟨7, 11⟩, [PayloadM.serialize lowFeePayload]⟩

/-- A commitment signature accepted for `lowFeeOnion.commit = ⟨7, 11⟩` under
`testOracle` (challenge 1): nonce commitment `⟨1, 1⟩`, `s = 7 + 1`,
`t = 11 + 1`. -/
def lowFeeComsig : ComSignatureM :=
  ⟨⟨1, 1⟩, 8, 12⟩

/-- A swap environment with server key 5, a node that reports every
commitment unspent as a plain output, under `testOracle`. -/
def testSwapEnv : SwapEnv where
  oracle := testOracle
  server_key := 5
  build_input := fun c => some (some ⟨.Plain, c⟩)

/-- A concrete well-formed swap record for exercising the store. -/
def testSwapRecord : SwapDataM where
  excess := 1
  output_commit := ⟨7, 11⟩
  rangeproof := some [4, 2]
  input := ⟨.Plain, ⟨1, 2⟩⟩
  fee := 42
  onion := ⟨3, ⟨7, 11⟩, [[9, 9, 9]]⟩
  status := .Unprocessed

/-- A second well-formed record under a different input commitment, same
output commitment as `testSwapRecord`, already in process. -/
def testSwapRecordInProcess : SwapDataM where
  excess := 1
  output_commit := ⟨7, 11⟩
  rangeproof := some [4, 2]
  input := ⟨.Plain, ⟨1, 1⟩⟩
  fee := 42
  onion := ⟨3, ⟨7, 11⟩, [[9, 9, 9]]⟩
  status := .InProcess (List.replicate 32 0)

/-- A well-formed `Unprocessed` record carrying no rangeproof. -/
def testSwapRecordNoProof : SwapDataM where
  excess := 1
  output_commit := ⟨7, 11⟩
  rangeproof := none
  input := ⟨.Plain, ⟨1, 2⟩⟩
  fee := 42
  onion := ⟨3, ⟨7, 11⟩, [[9, 9, 9]]⟩
  status := .Unprocessed

/-- A round environment whose node reports every input spendable and every
output commitment spent, at chain height 100. -/
def testRoundEnv : RoundEnv where
  get_chain_height := some 100
  is_spendable := fun _ _ => some true
  is_unspent := fun _ => some false
  assemble_tx := fun _ _ _ _ _ => some ⟨[[1]]⟩
  post_tx := fun _ => some ()
  kernel_hash := fun k => k

/-- The store holding `testSwapRecordInProcess` then `testSwapRecord` (in
ascending key order of their input commitments). -/
def testStoreTwo : DBModel :=
  (save_swap testSwapRecord false (save_swap testSwapRecordInProcess false []).2).2

/-- Success of the commitment-folding chain of a peel sequence: starting
from `c`, folding each payload's excess (`add_excess`) and fee
(`sub_value`) in order never hits a library failure (a zero excess, a zero
fee-point, or an identity-point intermediate commitment). -/
def commit_chain_ok : CommitmentM → List PayloadM → Bool
  | _, [] => true
  | c, p :: ps =>
    match add_excess c p.excess with
    | none => false
    | some c1 =>
      match sub_value c1 p.fee with
      | none => false
      | some c2 => commit_chain_ok c2 ps

/-- A single-hop route whose payload declares fee 0 (hop key 2, excess 1). -/
def zeroFeeHop : HopM :=
  ⟨2, ⟨1, 0, some [4, 2]⟩⟩

/-- The onion `create_onion` produces for `zeroFeeHop` from commitment
`(7, 11)` and session key 3 under `testOracle`. -/
def zeroFeeOnion : OnionM :=
  ⟨3, ⟨7, 11⟩, [PayloadM.serialize ⟨1, 0, some [4, 2]⟩]⟩

/-- An onion carrying two payloads (violating the single-hop shape check). -/
def twoPayloadOnion : OnionM :=
  ⟨3, ⟨7, 11⟩, [[1], [2]]⟩

/-- The store holding only `testSwapRecordNoProof`. -/
def testStoreNoProof : DBModel :=
  (save_swap testSwapRecordNoProof false []).2

/-! ## Supporting lemmas -/

theorem toBytesBE_length (w n : Nat) : (toBytesBE w n).length = w := by
  induction w generalizing n with
  | zero => rfl
  | succ w ih => simp [toBytesBE, ih]

theorem fromBytesBE_toBytesBE {w n : Nat} (h : n < 256 ^ w) :
    fromBytesBE (toBytesBE w n) = n := by
  induction w generalizing n with
  | zero =>
    interval_cases n
    rfl
  | succ w ih =>
    have hdiv : n / 256 < 256 ^ w := by
      rw [Nat.div_lt_iff_lt_mul (by norm_num)]
      calc n < 256 ^ (w + 1) := h
        _ = 256 ^ w * 256 := by ring
    have hrec := ih hdiv
    simp only [toBytesBE, fromBytesBE, List.foldl_append, List.foldl_cons, List.foldl_nil]
    simp only [fromBytesBE] at hrec
    rw [hrec]
    omega

theorem readBytes_exact {n : Nat} {xs ys : List Nat} (h : xs.length = n) :
    readBytes n (xs ++ ys) = some (xs, ys) := by
  subst h
  simp [readBytes, List.take_left, List.drop_left]

theorem secretKeyFromSlice_toBytesBE {x : Scalar} (hx : x ≠ 0) :
    secretKeyFromSlice (toBytesBE 32 x.val) = some x := by
  have hlt : x.val < nOrder := ZMod.val_lt x
  have hb : x.val < 256 ^ 32 := lt_trans hlt (by norm_num [nOrder])
  have hpos : 0 < x.val := by
    rcases Nat.eq_zero_or_pos x.val with h0 | h1
    · exact absurd ((ZMod.val_eq_zero x).mp h0) hx
    · exact h1
  simp only [secretKeyFromSlice, toBytesBE_length, fromBytesBE_toBytesBE hb]
  simp [hpos, hlt, ZMod.natCast_rightInverse x]

theorem secretKeyFromSlice_ne_zero {bs : List Nat} {k : Scalar}
    (h : secretKeyFromSlice bs = some k) : k ≠ 0 := by
  simp only [secretKeyFromSlice] at h
  split at h
  · rename_i hcond
    obtain ⟨-, hpos, hlt⟩ := hcond
    obtain rfl : ((fromBytesBE bs : Nat) : Scalar) = k := by injection h
    intro h0
    have hv := ZMod.val_cast_of_lt hlt
    rw [h0, ZMod.val_zero] at hv
    omega
  · exact absurd h (by simp)

theorem applyKeystream_length (ks : Nat → Nat) (pos : Nat) (bs : List Nat) :
    (applyKeystream ks pos bs).length = bs.length := by
  induction bs generalizing pos with
  | nil => rfl
  | cons b bs ih => simp [applyKeystream, ih]

theorem applyKeystream_involutive (ks : Nat → Nat) (pos : Nat) (bs : List Nat) :
    applyKeystream ks pos (applyKeystream ks pos bs) = bs := by
  induction bs generalizing pos with
  | nil => rfl
  | cons b bs ih => simp [applyKeystream, ih, Nat.xor_cancel_right]

theorem applyKeystreamAll_involutive (ks : Nat → Nat) (pos : Nat)
    (ps : List (List Nat)) :
    applyKeystreamAll ks pos (applyKeystreamAll ks pos ps) = ps := by
  induction ps generalizing pos with
  | nil => rfl
  | cons p ps ih =>
    simp [applyKeystreamAll, applyKeystream_length, applyKeystream_involutive, ih]

theorem readBytes_self (xs : List Nat) : readBytes xs.length xs = some (xs, []) := by
  have h := @readBytes_exact xs.length xs [] rfl
  simpa using h

set_option maxHeartbeats 1000000 in
theorem payload_round_trip {p : PayloadM} (hwf : payload_wf p) :
    PayloadM.deserialize p.serialize = some p := by
  obtain ⟨pex, pfee, prp⟩ := p
  simp only [payload_wf] at hwf
  obtain ⟨hex, hfee, hrp⟩ := hwf
  have hfee4 : pfee < 256 ^ 4 := by omega
  cases prp with
  | none =>
    have h1 : PayloadM.serialize ⟨pex, pfee, none⟩ = toBytesBE 32 pex.val ++
        (toBytesBE 4 pfee ++ [0]) :=
      List.append_assoc _ _ _
    rw [h1, PayloadM.deserialize, readBytes_exact (toBytesBE_length 32 _)]
    simp only [Option.bind_eq_bind, Option.some_bind, secretKeyFromSlice_toBytesBE hex]
    rw [readBytes_exact (toBytesBE_length 4 _)]
    simp only [Option.some_bind]
    rw [(List.append_nil ([0] : List Nat)).symm, readBytes_exact (by simp)]
    simp [fromBytesBE_toBytesBE hfee4]
  | some rp =>
    have hlen : rp.length < 256 ^ 8 := by
      have h8 : (256 : Nat) ^ 8 = 2 ^ 64 := by norm_num
      rw [h8]; exact hrp
    have h1 : PayloadM.serialize ⟨pex, pfee, some rp⟩ = toBytesBE 32 pex.val ++
        (toBytesBE 4 pfee ++ ([1] ++ (toBytesBE 8 rp.length ++ rp))) :=
      List.append_assoc _ _ _
    rw [h1, PayloadM.deserialize, readBytes_exact (toBytesBE_length 32 _)]
    simp only [Option.bind_eq_bind, Option.some_bind, secretKeyFromSlice_toBytesBE hex]
    rw [readBytes_exact (toBytesBE_length 4 _)]
    simp only [Option.some_bind]
    rw [readBytes_exact (by simp : ([1] : List Nat).length = 1)]
    simp only [Option.some_bind]
    rw [readBytes_exact (toBytesBE_length 8 _)]
    simp only [Option.some_bind]
    rw [fromBytesBE_toBytesBE hlen, readBytes_self]
    simp [fromBytesBE_toBytesBE hfee4]

@[simp] theorem exceptOkBind {ε α β : Type} (a : α) (f : α → Except ε β) :
    (Except.ok a : Except ε α) >>= f = f a := rfl

@[simp] theorem exceptErrorBind {ε α β : Type} (e : ε) (f : α → Except ε β) :
    (Except.error e : Except ε α) >>= f = Except.error e := rfl

theorem calc_blinding_factor_ne_zero {oracle : CryptoOracles} {ss : List Nat}
    {p : PublicKeyM} {b : Scalar}
    (h : calc_blinding_factor oracle ss p = .ok b) : b ≠ 0 := by
  unfold calc_blinding_factor at h
  split at h
  · rename_i k hk
    injection h with h2
    exact h2 ▸ secretKeyFromSlice_ne_zero hk
  · exact absurd h (by simp)

theorem seckeyMulAssign_eq_some {a e k : Scalar} (h : seckeyMulAssign a e = some k) :
    k = a * e ∧ a * e ≠ 0 := by
  unfold seckeyMulAssign at h
  split at h
  · exact absurd h (by simp)
  · rename_i hc
    push_neg at hc
    injection h with h2
    exact ⟨h2.symm, hc.2.2⟩

theorem add_excess_eq_some {c c1 : CommitmentM} {e : Scalar}
    (h : add_excess c e = some c1) : c1 = ⟨c.v, c.r + e⟩ := by
  unfold add_excess at h
  split at h
  · exact absurd h (by simp)
  · split at h
    · exact absurd h (by simp)
    · injection h with h2
      exact h2.symm

theorem sub_value_eq_some {c c1 : CommitmentM} {v : Nat}
    (h : sub_value c v = some c1) : c1 = ⟨c.v - (v : Scalar), c.r⟩ := by
  unfold sub_value at h
  split at h
  · exact absurd h (by simp)
  · split at h
    · exact absurd h (by simp)
    · injection h with h2
      exact h2.symm

theorem peel_layer_create_step (oracle : CryptoOracles) (commitment : CommitmentM)
    (h : HopM) (sessionKey blind : Scalar) (rest2 : List (List Nat))
    (c1 c2 : CommitmentM)
    (hwfp : payload_wf h.payload)
    (hbl : calc_blinding_factor oracle (oracle.ecdh (h.pubkey * sessionKey)) sessionKey =
      .ok blind)
    (hadd : add_excess commitment h.payload.excess = some c1)
    (hsub : sub_value c1 h.payload.fee = some c2) :
    OnionM.peel_layer oracle
      ⟨sessionKey, commitment,
        applyKeystreamAll (newStreamCipher oracle (oracle.ecdh (h.pubkey * sessionKey))) 0
          (h.payload.serialize :: rest2)⟩ h.pubkey =
    some (.ok (h.payload, ⟨sessionKey * blind, c2, rest2⟩)) := by
  have hbne := calc_blinding_factor_ne_zero hbl
  simp only [OnionM.peel_layer, applyKeystreamAll, Nat.zero_add]
  rw [mul_comm sessionKey h.pubkey]
  simp [applyKeystream_involutive, applyKeystream_length, applyKeystreamAll_involutive,
    payload_round_trip hwfp, hbl, pubkeyMulAssign, hbne, hadd, hsub]

/-- Claim C1, amended (onion round-trip): for every hop list, commitment and
session key for which `create_onion` succeeds (with well-formed payloads)
and for which the commitment-folding chain avoids the library's commit
failures (no zero fee point and no identity-point intermediate commitment,
`commit_chain_ok`), peeling sequentially with the matching hop secrets
yields exactly the i-th payload at the i-th peel, and the final onion has
an empty payload list and commit equal to the original commitment plus the
sum of all hop excesses times `G` minus the sum of all hop fees times `H`.
(The unamended claim fails at a zero-fee payload, where the real peel
errors in `sub_value`; see the counterexample.) -/
theorem onion_round_trip (oracle : CryptoOracles) (commitment : CommitmentM)
    (hops : List HopM) (sessionKey : Scalar) (onion : OnionM)
    (hcreate : create_onion oracle commitment hops sessionKey = .ok onion)
    (hwf : ∀ hp ∈ hops, payload_wf hp.payload)
    (hchain : commit_chain_ok commitment (hops.map (fun hp => hp.payload)) = true) :
    ∃ e, peelAll oracle onion (hops.map (fun hp => hp.pubkey)) =
      some (hops.map (fun hp => hp.payload),
        ⟨e, ⟨commitment.v - (((hops.map (fun hp => hp.payload.fee)).sum : Nat) : Scalar),
          commitment.r + (hops.map (fun hp => hp.payload.excess)).sum⟩, []⟩) := by
  induction hops generalizing commitment sessionKey onion with
  | nil =>
    simp only [create_onion, hopChain] at hcreate
    cases hpk : pubkeyFromSecret sessionKey with
    | none =>
      rw [hpk] at hcreate
      simp at hcreate
    | some p =>
      rw [hpk] at hcreate
      simp only [exceptOkBind] at hcreate
      injection hcreate with hcreate
      subst hcreate
      refine ⟨p, ?_⟩
      simp [peelAll, encryptAll]
  | cons h hs ih =>
    simp only [create_onion, hopChain] at hcreate
    cases hpk : pubkeyFromSecret sessionKey with
    | none =>
      rw [hpk] at hcreate
      simp at hcreate
    | some p =>
      have hpeq : p = sessionKey := by
        unfold pubkeyFromSecret at hpk
        split at hpk
        · exact absurd hpk (by simp)
        · injection hpk with h2
          exact h2.symm
      subst hpeq
      rw [hpk] at hcreate
      simp only [exceptOkBind] at hcreate
      cases hbl : calc_blinding_factor oracle (oracle.ecdh (h.pubkey * p)) p with
      | error e =>
        rw [hbl] at hcreate
        simp at hcreate
      | ok blind =>
        rw [hbl] at hcreate
        simp only [exceptOkBind] at hcreate
        cases hmul : seckeyMulAssign p blind with
        | none =>
          rw [hmul] at hcreate
          simp at hcreate
        | some nextKey =>
          rw [hmul] at hcreate
          simp only [exceptOkBind] at hcreate
          obtain ⟨hnk, hnkne⟩ := seckeyMulAssign_eq_some hmul
          subst hnk
          cases hrest : hopChain oracle (p * blind) hs with
          | error e =>
            rw [hrest] at hcreate
            simp at hcreate
          | ok chainRest =>
            rw [hrest] at hcreate
            simp only [exceptOkBind] at hcreate
            injection hcreate with hcreate
            subst hcreate
            -- extract this hop's commitment-folding successes
            rw [List.map_cons, commit_chain_ok] at hchain
            cases hadd : add_excess commitment h.payload.excess with
            | none =>
              rw [hadd] at hchain
              simp at hchain
            | some c1 =>
              rw [hadd] at hchain
              simp only [] at hchain
              cases hsub : sub_value c1 h.payload.fee with
              | none =>
                rw [hsub] at hchain
                simp at hchain
              | some c2 =>
                rw [hsub] at hchain
                simp only [] at hchain
                have hc1 := add_excess_eq_some hadd
                have hc2 := sub_value_eq_some hsub
                have hcreate2 : create_onion oracle c2 hs (p * blind) =
                    .ok ⟨p * blind, c2, encryptAll oracle chainRest⟩ := by
                  simp [create_onion, hrest, pubkeyFromSecret, hnkne]
                obtain ⟨e, hpeel⟩ := ih c2 (p * blind) _ hcreate2
                  (fun hp hmem => hwf hp (List.mem_cons_of_mem _ hmem)) hchain
                refine ⟨e, ?_⟩
                simp only [List.map_cons, peelAll, encryptAll]
                rw [peel_layer_create_step oracle commitment h p blind
                  (encryptAll oracle chainRest) c1 c2
                  (hwf h (List.mem_cons_self _ _)) hbl hadd hsub]
                simp only [hpeel, Option.some.injEq, Prod.mk.injEq, List.cons.injEq,
                  true_and, List.map_cons, List.sum_cons, CommitmentM.mk.injEq,
                  OnionM.mk.injEq]
                refine ⟨⟨?_, ?_⟩, trivial⟩
                · simp only [hc2, hc1]
                  push_cast
                  ring
                · simp only [hc2, hc1]
                  ring

theorem seckeyAddAssign_eq_some {a e k : Scalar} (h : seckeyAddAssign a e = some k) :
    k = a + e := by
  unfold seckeyAddAssign at h
  split at h
  · exact absurd h (by simp)
  · injection h with h2
    exact h2.symm

/-- Claim C9 (peel is partial on the payload list): `peel_layer` panics on
the unguarded index `enc_payloads[0]` exactly when the payload list is
empty; with at least one payload the indexing never panics. -/
theorem peel_layer_none_iff (oracle : CryptoOracles) (o : OnionM) (k : Scalar) :
    OnionM.peel_layer oracle o k = none ↔ o.enc_payloads = [] := by
  simp only [OnionM.peel_layer]
  cases henc : o.enc_payloads with
  | nil => simp
  | cons p0 rest => simp

/-- Claim C8 (blinding chain consistency): after one successful peel with
secret `k` of an onion with ephemeral key `E`, the new ephemeral key equals
`E` multiplied by the scalar `SHA256(serialize(E) ‖ ECDH(E, k)[0..32])`. -/
theorem blinding_chain (oracle : CryptoOracles) (o : OnionM) (k : Scalar)
    (p : PayloadM) (o2 : OnionM)
    (h : OnionM.peel_layer oracle o k = some (.ok (p, o2))) :
    ∃ b, secretKeyFromSlice (oracle.sha256 (serPubkey o.ephemeral_pubkey ++
        (oracle.ecdh (o.ephemeral_pubkey * k)).take 32)) = some b ∧
      o2.ephemeral_pubkey = o.ephemeral_pubkey * b := by
  simp only [OnionM.peel_layer] at h
  split at h
  · exact absurd h (by simp)
  · injection h with h
    split at h
    case h_2 => simp at h
    case h_1 payload hdes =>
      simp only [exceptOkBind] at h
      cases hbl : calc_blinding_factor oracle (oracle.ecdh (o.ephemeral_pubkey * k))
          o.ephemeral_pubkey with
      | error e =>
        rw [hbl] at h
        simp at h
      | ok blind =>
        rw [hbl] at h
        simp only [exceptOkBind] at h
        cases hmul : pubkeyMulAssign o.ephemeral_pubkey blind with
        | none =>
          rw [hmul] at h
          simp at h
        | some eph2 =>
          rw [hmul] at h
          simp only [exceptOkBind] at h
          cases hadd : add_excess o.commit payload.excess with
          | none =>
            rw [hadd] at h
            simp at h
          | some c1 =>
            rw [hadd] at h
            simp only [exceptOkBind] at h
            cases hsub : sub_value c1 payload.fee with
            | none =>
              rw [hsub] at h
              simp at h
            | some c2 =>
              rw [hsub] at h
              simp only [Except.ok.injEq, Prod.mk.injEq] at h
              obtain ⟨hp, ho2⟩ := h
              refine ⟨blind, ?_, ?_⟩
              · unfold calc_blinding_factor at hbl
                split at hbl
                · rename_i k2 hsl
                  injection hbl with hbl
                  exact hbl ▸ hsl
                · exact absurd hbl (by simp)
              · unfold pubkeyMulAssign at hmul
                split at hmul
                · exact absurd hmul (by simp)
                · injection hmul with hmul
                  rw [← ho2]
                  exact hmul.symm

theorem calc_challenge_ne_zero {oracle : CryptoOracles} {c1 c2 : CommitmentM}
    {m : List Nat} {e : Scalar}
    (h : calc_challenge oracle c1 c2 m = .ok e) : e ≠ 0 := by
  unfold calc_challenge at h
  split at h
  · rename_i hk
    injection h with h2
    exact h2 ▸ secretKeyFromSlice_ne_zero hk
  · exact absurd h (by simp)

/-- Claim C2 (ComSig round-trip): whenever `ComSignature::sign(v, r, m)`
produces a signature, verifying it against `commit(v, r)` and the same
message accepts. -/
theorem comsig_round_trip (oracle : CryptoOracles) (v : Nat) (r : Scalar)
    (m : List Nat) (k1 k2 : Scalar) (sig : ComSignatureM)
    (hv : v < 2 ^ 64)
    (hsig : ComSignatureM.sign oracle v r m k1 k2 = .ok sig) :
    sig.verify oracle (commit v r) m = .ok () := by
  unfold ComSignatureM.sign at hsig
  cases hk : secretKeyFromSlice (toBytesBE 32 v) with
  | none => rw [hk] at hsig; simp at hsig
  | some kAmt =>
    rw [hk] at hsig
    simp only [exceptOkBind] at hsig
    have hv32 : v < 256 ^ 32 := lt_trans hv (by norm_num)
    have hkv : kAmt = (v : Scalar) := by
      unfold secretKeyFromSlice at hk
      simp only [fromBytesBE_toBytesBE hv32] at hk
      split at hk
      · injection hk with hk2
        exact hk2.symm
      · exact absurd hk (by simp)
    cases he : calc_challenge oracle (commit v r) (commit_blind k1 k2) m with
    | error err => rw [he] at hsig; simp at hsig
    | ok e =>
      rw [he] at hsig
      simp only [exceptOkBind] at hsig
      have hene := calc_challenge_ne_zero he
      cases hs1 : seckeyMulAssign kAmt e with
      | none => rw [hs1] at hsig; simp at hsig
      | some s1 =>
        rw [hs1] at hsig
        simp only [exceptOkBind] at hsig
        cases hs : seckeyAddAssign s1 k1 with
        | none => rw [hs] at hsig; simp at hsig
        | some s =>
          rw [hs] at hsig
          simp only [exceptOkBind] at hsig
          cases ht1 : seckeyMulAssign r e with
          | none => rw [ht1] at hsig; simp at hsig
          | some t1 =>
            rw [ht1] at hsig
            simp only [exceptOkBind] at hsig
            cases ht : seckeyAddAssign t1 k2 with
            | none => rw [ht] at hsig; simp at hsig
            | some t =>
              rw [ht] at hsig
              simp only [exceptOkBind, Except.ok.injEq] at hsig
              obtain ⟨hs1v, -⟩ := seckeyMulAssign_eq_some hs1
              have hsv := seckeyAddAssign_eq_some hs
              obtain ⟨ht1v, -⟩ := seckeyMulAssign_eq_some ht1
              have htv := seckeyAddAssign_eq_some ht
              subst hsig
              have hseq : s = (v : Scalar) * e + k1 := by
                rw [hsv, hs1v, hkv]
              have hteq : t = r * e + k2 := by
                rw [htv, ht1v]
              have heq : commit_blind s t =
                  ⟨(commit v r).v * e + (commit_blind k1 k2).v,
                    (commit v r).r * e + (commit_blind k1 k2).r⟩ := by
                simp only [commit_blind, commit, CommitmentM.mk.injEq]
                exact ⟨by rw [hseq], by rw [hteq]⟩
              unfold ComSignatureM.verify
              simp only [he, exceptOkBind]
              rw [if_neg hene, if_neg (not_not_intro heq)]

theorem save_swap_fail_unchanged {s : SwapDataM} {ov : Bool} {db db2 : DBModel}
    {e : StoreError} (h : save_swap s ov db = (.error e, db2)) : db2 = db := by
  unfold save_swap storeWrite at h
  split at h
  · injection h with h1 h2
    exact h2.symm
  · simp at h

/-- Claim C5 (payload-length shape check): `swap` returns
`InvalidPayloadLength{expected: 1, found: n}` (leaving the store untouched)
exactly when the onion carries `n ≠ 1` encrypted payloads, for every
environment — i.e. before and independently of any other validation. -/
theorem swap_shape_check (env : SwapEnv) (db : DBModel) (o : OnionM)
    (c : ComSignatureM) (n : Nat) :
    ServerImpl.swap env db o c =
        some (.error (.InvalidPayloadLength 1 n), db) ↔
      n = o.enc_payloads.length ∧ o.enc_payloads.length ≠ 1 := by
  constructor
  · intro h
    by_cases hlen : o.enc_payloads.length = 1
    · exfalso
      simp only [ServerImpl.swap] at h
      rw [if_neg (not_not_intro hlen)] at h
      cases hv : ComSignatureM.verify env.oracle c o.commit o.serialize with
      | error e0 =>
        rw [hv] at h
        simp at h
      | ok u =>
        cases u
        rw [hv] at h
        (repeat' split at h) <;> simp_all
    · simp only [ServerImpl.swap] at h
      rw [if_pos hlen] at h
      simp only [Option.some.injEq, Prod.mk.injEq] at h
      obtain ⟨h1, -⟩ := h
      injection h1 with h1
      cases h1
      exact ⟨rfl, hlen⟩
  · rintro ⟨rfl, hne⟩
    simp only [ServerImpl.swap]
    rw [if_pos hne]

/-- Claim C3 (admission atomicity): whenever `swap` returns an error the
store is unchanged, and whenever it succeeds the store was mutated only by
the final non-overwriting `save_swap` of the admitted record. -/
theorem swap_admission_atomic (env : SwapEnv) (db : DBModel) (o : OnionM)
    (c : ComSignatureM) (res : Except SwapError Unit) (db2 : DBModel)
    (h : ServerImpl.swap env db o c = some (res, db2)) :
    (∀ e, res = .error e → db2 = db) ∧
    (res = .ok () → ∃ record, save_swap record false db = (.ok (), db2)) := by
  simp only [ServerImpl.swap] at h
  by_cases hlen : o.enc_payloads.length ≠ 1
  · rw [if_pos hlen] at h
    simp only [Option.some.injEq, Prod.mk.injEq] at h
    obtain ⟨h1, h2⟩ := h
    subst h1 h2
    exact ⟨fun e _ => rfl, fun hok => by simp at hok⟩
  · rw [if_neg hlen] at h
    repeat' split at h
    all_goals
      first
      | exact Option.noConfusion h
      | (simp only [Option.some.injEq, Prod.mk.injEq] at h
         obtain ⟨h1, h2⟩ := h
         subst h1 h2
         first
         | exact ⟨fun e _ => rfl, fun hok => by simp at hok⟩
         | exact ⟨fun e _ => save_swap_fail_unchanged (by assumption),
             fun hok => by simp at hok⟩
         | exact ⟨fun e he => by simp at he, fun _ => ⟨_, by assumption⟩⟩)

/-- Claim C6 (fee floor): the minimum fee equals
`weight_by_iok(1,1,1) * DEFAULT_ACCEPT_FEE_BASE`, and for every request
that passes the shape, signature, UTXO and peel steps, `swap` returns
`FeeTooLow{minimum_fee, actual_fee}` exactly when the peeled payload's fee
is strictly below that minimum. -/
theorem fee_floor (env : SwapEnv) (db : DBModel) (o : OnionM) (c : ComSignatureM)
    (input : InputM) (payload : PayloadM) (peeled : OnionM)
    (hlen : o.enc_payloads.length = 1)
    (hsig : ComSignatureM.verify env.oracle c o.commit o.serialize = .ok ())
    (hnode : env.build_input o.commit = some (some input))
    (hpeel : OnionM.peel_layer env.oracle o env.server_key =
      some (.ok (payload, peeled))) :
    get_minimum_swap_fee = weight_by_iok 1 1 1 * DEFAULT_ACCEPT_FEE_BASE ∧
    ∀ res db2, ServerImpl.swap env db o c = some (res, db2) →
      (res = .error (.FeeTooLow get_minimum_swap_fee payload.fee) ↔
        payload.fee < get_minimum_swap_fee) := by
  refine ⟨rfl, ?_⟩
  intro res db2 hswap
  simp only [ServerImpl.swap] at hswap
  rw [if_neg (not_not_intro hlen), hsig, hnode, hpeel] at hswap
  split at hswap
  case h_1 heq => exact absurd heq (by simp)
  case h_2 =>
  split at hswap
  case h_1 heq => exact absurd heq (by simp)
  case h_2 heq => exact absurd heq (by simp)
  case h_3 input2 heq =>
  obtain rfl : input2 = input := by
    injection heq with heq
    injection heq with heq
    exact heq.symm
  split at hswap
  case h_1 heq => exact absurd heq (by simp)
  case h_2 e heq =>
    injection heq with heq
    exact absurd heq (by simp)
  case h_3 payload2 peeled2 heq =>
  obtain ⟨rfl, rfl⟩ : payload = payload2 ∧ peeled = peeled2 := by
    injection heq with heq
    injection heq with heq
    exact ⟨congrArg Prod.fst heq, congrArg Prod.snd heq⟩
  by_cases hf : payload.fee < get_minimum_swap_fee
  · rw [if_pos hf] at hswap
    simp only [Option.some.injEq, Prod.mk.injEq] at hswap
    obtain ⟨h1, h2⟩ := hswap
    subst h1 h2
    simp [hf]
  · rw [if_neg hf] at hswap
    apply iff_of_false ?_ hf
    repeat' split at hswap
    all_goals
      simp only [Option.some.injEq, Prod.mk.injEq] at hswap
    all_goals
      obtain ⟨h1, h2⟩ := hswap
    all_goals
      subst h1 h2
    all_goals simp

theorem dbGet_dbPut (k v : List Nat) (db : DBModel) :
    dbGet k (dbPut k v db) = some v := by
  induction db with
  | nil => simp [dbPut, dbGet]
  | cons kv rest ih =>
    obtain ⟨k2, v2⟩ := kv
    by_cases hk : k = k2
    · simp [dbPut, hk, dbGet]
    · by_cases hlt : bytesLt k k2
      · simp [dbPut, hk, hlt, dbGet]
      · simp only [dbPut, if_neg hk, hlt, if_false, Bool.false_eq_true]
        simp only [dbGet, List.find?_cons] at ih ⊢
        have hne : (decide (k2 = k)) = false := by
          simp
          exact fun h => hk h.symm
        rw [hne]
        exact ih

theorem readCommit_ser (c : CommitmentM) (rest : List Nat) :
    readCommit (serCommit c ++ rest) = some (c, rest) := by
  have hlen : (serCommit c).length = 65 := by
    simp [serCommit, toBytesBE_length]
  rw [readCommit, readBytes_exact hlen]
  simp only [Option.some_bind, serCommit]
  have hvv : c.v.val < 256 ^ 32 := lt_trans (ZMod.val_lt c.v) (by norm_num [nOrder])
  have hrv : c.r.val < 256 ^ 32 := lt_trans (ZMod.val_lt c.r) (by norm_num [nOrder])
  simp [List.drop_left' (toBytesBE_length 32 c.v.val), List.take_left'
    (toBytesBE_length 32 c.v.val), fromBytesBE_toBytesBE hvv, fromBytesBE_toBytesBE hrv,
    ZMod.natCast_rightInverse c.v, ZMod.natCast_rightInverse c.r]

theorem readPubkey_ser {p : PublicKeyM} (hp : p ≠ 0) (rest : List Nat) :
    readPubkey (serPubkey p ++ rest) = some (p, rest) := by
  have hlen : (serPubkey p).length = 33 := by
    simp [serPubkey, toBytesBE_length]
  rw [readPubkey, readBytes_exact hlen]
  simp only [Option.some_bind, serPubkey]
  have hvv : p.val < 256 ^ 32 := lt_trans (ZMod.val_lt p) (by norm_num [nOrder])
  have hpos : 0 < p.val := by
    rcases Nat.eq_zero_or_pos p.val with h0 | h1
    · exact absurd ((ZMod.val_eq_zero p).mp h0) hp
    · exact h1
  simp [fromBytesBE_toBytesBE hvv, hpos, ZMod.val_lt p, ZMod.natCast_rightInverse p]

theorem readOptBytes_ser {orp : Option (List Nat)} (hwf : rp_wf orp) (rest : List Nat) :
    readOptBytes (serOptBytes orp ++ rest) = some (orp, rest) := by
  cases orp with
  | none =>
    rw [serOptBytes, readOptBytes,
      readBytes_exact (by simp : ([0] : List Nat).length = 1)]
    simp only [Option.bind_eq_bind, Option.some_bind]
    rfl
  | some bs =>
    have hlen : bs.length < 256 ^ 8 := by
      have h8 : (256 : Nat) ^ 8 = 2 ^ 64 := by norm_num
      rw [h8]; exact hwf
    have hsh : serOptBytes (some bs) ++ rest =
        [1] ++ (toBytesBE 8 bs.length ++ (bs ++ rest)) := by
      simp [serOptBytes, List.append_assoc]
    rw [hsh, readOptBytes, readBytes_exact (by simp : ([1] : List Nat).length = 1)]
    simp only [Option.bind_eq_bind, Option.some_bind]
    rw [readBytes_exact (toBytesBE_length 8 _)]
    simp only [Option.some_bind]
    rw [fromBytesBE_toBytesBE hlen, readBytes_exact rfl]
    rfl

theorem readInput_ser (i : InputM) (rest : List Nat) :
    readInput (serInput i ++ rest) = some (i, rest) := by
  obtain ⟨f, c⟩ := i
  cases f with
  | Plain =>
    have hsh : serInput ⟨.Plain, c⟩ ++ rest = [0] ++ (serCommit c ++ rest) := by
      simp [serInput, serFeatures]
    rw [hsh, readInput, readBytes_exact (by simp : ([0] : List Nat).length = 1)]
    simp only [Option.bind_eq_bind, Option.some_bind]
    rw [readCommit_ser]
    rfl
  | Coinbase =>
    have hsh : serInput ⟨.Coinbase, c⟩ ++ rest = [1] ++ (serCommit c ++ rest) := by
      simp [serInput, serFeatures]
    rw [hsh, readInput, readBytes_exact (by simp : ([1] : List Nat).length = 1)]
    simp only [Option.bind_eq_bind, Option.some_bind]
    rw [readCommit_ser]
    rfl

theorem readStatus_ser {st : SwapStatusM} (hwf : status_wf st) (rest : List Nat) :
    readStatus (serStatus st ++ rest) = some (st, rest) := by
  cases st with
  | Unprocessed =>
    rw [serStatus, readStatus,
      readBytes_exact (by simp : ([0] : List Nat).length = 1)]
    simp only [Option.bind_eq_bind, Option.some_bind]
    rfl
  | InProcess kh =>
    have hkh : kh.length = 32 := hwf
    have hsh : serStatus (.InProcess kh) ++ rest = [1] ++ (kh ++ rest) := by
      simp [serStatus]
    rw [hsh, readStatus, readBytes_exact (by simp : ([1] : List Nat).length = 1)]
    simp only [Option.bind_eq_bind, Option.some_bind]
    rw [readBytes_exact hkh]
    rfl
  | Completed kh bh =>
    obtain ⟨hkh, hbh⟩ := hwf
    have hsh : serStatus (.Completed kh bh) ++ rest = [2] ++ (kh ++ (bh ++ rest)) := by
      simp [serStatus]
    rw [hsh, readStatus, readBytes_exact (by simp : ([2] : List Nat).length = 1)]
    simp only [Option.bind_eq_bind, Option.some_bind]
    rw [readBytes_exact hkh]
    simp only [Option.some_bind]
    rw [readBytes_exact hbh]
    rfl

theorem readOnionPayloads_ser {ps : List (List Nat)}
    (hwf : ∀ p ∈ ps, p.length < 2 ^ 64) (rest : List Nat) :
    readOnionPayloads ps.length
        ((ps.map (fun p => toBytesBE 8 p.length ++ p)).flatten ++ rest) =
      some (ps, rest) := by
  induction ps generalizing rest with
  | nil => rfl
  | cons p ps ih =>
    have hp : p.length < 256 ^ 8 := by
      have h8 : (256 : Nat) ^ 8 = 2 ^ 64 := by norm_num
      rw [h8]; exact hwf p (List.mem_cons_self _ _)
    have hsh : ((p :: ps).map (fun q => toBytesBE 8 q.length ++ q)).flatten ++ rest =
        toBytesBE 8 p.length ++ (p ++
          ((ps.map (fun q => toBytesBE 8 q.length ++ q)).flatten ++ rest)) := by
      simp [List.append_assoc]
    rw [List.length_cons, hsh, readOnionPayloads, readBytes_exact (toBytesBE_length 8 _)]
    simp only [Option.bind_eq_bind, Option.some_bind]
    rw [fromBytesBE_toBytesBE hp, readBytes_exact rfl]
    simp only [Option.some_bind]
    rw [ih (fun q hq => hwf q (List.mem_cons_of_mem _ hq))]
    rfl

theorem readOnion_ser {o : OnionM} (hwf : onion_wf o) (rest : List Nat) :
    readOnion (OnionM.serialize o ++ rest) = some (o, rest) := by
  obtain ⟨hp, hcnt, hps⟩ := hwf
  have hcnt8 : o.enc_payloads.length < 256 ^ 8 := by
    have h8 : (256 : Nat) ^ 8 = 2 ^ 64 := by norm_num
    rw [h8]; exact hcnt
  have hsh : OnionM.serialize o ++ rest =
      serPubkey o.ephemeral_pubkey ++ (serCommit o.commit ++
        (toBytesBE 8 o.enc_payloads.length ++
          ((o.enc_payloads.map (fun p => toBytesBE 8 p.length ++ p)).flatten ++ rest))) := by
    simp [OnionM.serialize, List.append_assoc]
  rw [hsh, readOnion, readPubkey_ser hp]
  simp only [Option.bind_eq_bind, Option.some_bind]
  rw [readCommit_ser]
  simp only [Option.some_bind]
  rw [readBytes_exact (toBytesBE_length 8 _)]
  simp only [Option.some_bind]
  rw [fromBytesBE_toBytesBE hcnt8, readOnionPayloads_ser hps]
  rfl

theorem readSwapData_ser {s : SwapDataM} (hwf : swap_wf s) :
    readSwapData (serSwapData s) = some s := by
  obtain ⟨hex, hfee, hrp, honion, hstatus⟩ := hwf
  have hfee8 : s.fee < 256 ^ 8 := by
    have h8 : (256 : Nat) ^ 8 = 2 ^ 64 := by norm_num
    rw [h8]; exact hfee
  have hsh : serSwapData s = [0] ++ (toBytesBE 32 s.excess.val ++
      (serCommit s.output_commit ++ (serOptBytes s.rangeproof ++
        (serInput s.input ++ (toBytesBE 8 s.fee ++
          (OnionM.serialize s.onion ++ (serStatus s.status ++ []))))))) := by
    simp [serSwapData, List.append_assoc]
  rw [hsh, readSwapData, readBytes_exact (by simp : ([0] : List Nat).length = 1)]
  simp only [Option.bind_eq_bind, Option.some_bind]
  rw [if_neg (by simp)]
  rw [readBytes_exact (toBytesBE_length 32 _)]
  simp only [Option.some_bind]
  rw [secretKeyFromSlice_toBytesBE hex]
  simp only [Option.some_bind]
  rw [readCommit_ser]
  simp only [Option.some_bind]
  rw [readOptBytes_ser hrp]
  simp only [Option.some_bind]
  rw [readInput_ser]
  simp only [Option.some_bind]
  rw [readBytes_exact (toBytesBE_length 8 _)]
  simp only [Option.some_bind]
  rw [readOnion_ser honion]
  simp only [Option.some_bind]
  rw [readStatus_ser hstatus]
  simp only [Option.some_bind]
  rw [fromBytesBE_toBytesBE hfee8]
  rfl

/-- Claim C7 (store save semantics): a non-overwriting save of an existing
key returns `AlreadyExists` and leaves the store unchanged; an overwriting
save always succeeds; and `get_swap` after a successful save returns the
value just written. -/
theorem save_swap_semantics (db : DBModel) (x : SwapDataM) (hwf : swap_wf x) :
    (swap_exists x.input.commit db = true →
      save_swap x false db = (.error (.AlreadyExists x.input.commit), db)) ∧
    (save_swap x true db).1 = .ok () ∧
    (∀ ov db2, save_swap x ov db = (.ok (), db2) →
      get_swap x.input.commit db2 = .ok x) := by
  refine ⟨?_, ?_, ?_⟩
  · intro hex
    unfold swap_exists at hex
    unfold save_swap storeWrite
    simp [hex]
  · unfold save_swap storeWrite
    simp
  · intro ov db2 hsave
    unfold save_swap storeWrite at hsave
    by_cases hc : (!ov) = true ∧
        dbExists (toKey swapPrefix (serCommit x.input.commit)) db = true
    · rw [if_pos hc] at hsave
      simp at hsave
    · rw [if_neg hc] at hsave
      have hsave2 : ((Except.ok () : Except StoreError Unit),
          dbPut (toKey swapPrefix (serCommit x.input.commit)) (serSwapData x) db) =
          (Except.ok (), db2) := hsave
      simp only [Prod.mk.injEq] at hsave2
      obtain ⟨-, h2⟩ := hsave2
      subst h2
      unfold get_swap
      rw [dbGet_dbPut]
      simp only [readSwapData_ser hwf]

theorem mem_uniqueByGo {α β : Type} [DecidableEq β] (f : α → β)
    (seen : List β) (l : List α) (s : α) :
    s ∈ uniqueByGo f seen l ↔
      f s ∉ seen ∧ l.find? (fun t => f t == f s) = some s := by
  induction l generalizing seen with
  | nil => simp [uniqueByGo]
  | cons x xs ih =>
    by_cases hseen : f x ∈ seen
    · rw [uniqueByGo, if_pos hseen, ih]
      by_cases hfx : f x = f s
      · constructor
        · rintro ⟨hns, -⟩
          exact absurd (hfx ▸ hseen) hns
        · rintro ⟨hns, hfind⟩
          rw [List.find?_cons_of_pos _ (by simp [hfx])] at hfind
          injection hfind with hfind
          subst hfind
          exact absurd hseen hns
      · rw [List.find?_cons_of_neg _ (by simp [hfx])]
    · rw [uniqueByGo, if_neg hseen]
      by_cases hfx : f x = f s
      · rw [List.find?_cons_of_pos _ (by simp [hfx])]
        simp only [List.mem_cons, ih, Option.some.injEq]
        constructor
        · rintro (rfl | ⟨hns, -⟩)
          · exact ⟨hfx ▸ hseen, rfl⟩
          · exact absurd (by rw [← hfx]; exact Or.inl rfl) hns
        · rintro ⟨-, rfl⟩
          exact Or.inl rfl
      · rw [List.find?_cons_of_neg _ (by simp [hfx])]
        simp only [List.mem_cons, ih, List.mem_cons]
        constructor
        · rintro (rfl | ⟨hns, hfind⟩)
          · exact absurd rfl hfx
          · exact ⟨fun hmem => hns (Or.inr hmem), hfind⟩
        · rintro ⟨hns, hfind⟩
          refine Or.inr ⟨fun hmem => ?_, hfind⟩
          rcases hmem with heq | hmem2
          · exact hfx heq.symm
          · exact hns hmem2

theorem mem_uniqueBy {α β : Type} [DecidableEq β] (f : α → β) (l : List α) (s : α) :
    s ∈ uniqueBy f l ↔ l.find? (fun t => f t == f s) = some s := by
  rw [uniqueBy, mem_uniqueByGo]
  simp

theorem uniqueByGo_sublist {α β : Type} [DecidableEq β] (f : α → β)
    (seen : List β) (l : List α) : (uniqueByGo f seen l).Sublist l := by
  induction l generalizing seen with
  | nil => exact List.Sublist.refl _
  | cons x xs ih =>
    rw [uniqueByGo]
    split
    · exact (ih seen).trans (List.sublist_cons_self _ _)
    · exact (ih (f x :: seen)).cons₂ x

theorem is_unprocessed_iff (st : SwapStatusM) :
    is_unprocessed st = true ↔ st = .Unprocessed := by
  cases st <;> simp [is_unprocessed]

/-- Claim C4, amended: a stored record is a round candidate iff it is
`Unprocessed`, its input is spendable at the next height, its output
commitment is not unspent, and it is the first record in store order with
its output commitment — regardless of that first record's status; the
candidate list is a sublist of the store order.  (De-duplication by
`output_commit` happens before the status and spendability filters, so a
duplicate whose first occurrence fails the filters is dropped entirely.) -/
theorem round_selection_characterization (env : RoundEnv) (next : Nat)
    (swaps : List SwapDataM) :
    (∀ s, s ∈ select_candidates env next swaps ↔
      (s.status = .Unprocessed ∧
       (env.is_spendable s.input.commit next).getD false = true ∧
       (env.is_unspent s.output_commit).getD true = false ∧
       swaps.find? (fun t => t.output_commit == s.output_commit) = some s)) ∧
    (select_candidates env next swaps).Sublist swaps := by
  constructor
  · intro s
    simp only [select_candidates, List.mem_filter, mem_uniqueBy,
      is_unprocessed_iff, Bool.not_eq_true']
    constructor
    · rintro ⟨⟨⟨hfind, hst⟩, hsp⟩, hun⟩
      exact ⟨hst, hsp, hun, hfind⟩
    · rintro ⟨hst, hsp, hun, hfind⟩
      exact ⟨⟨⟨hfind, hst⟩, hsp⟩, hun⟩
  · exact ((List.filter_sublist _).trans
      ((List.filter_sublist _).trans (List.filter_sublist _))).trans
      (uniqueByGo_sublist _ [] swaps)

/-- Claim C4, counterexample: on a store holding an `InProcess` record and
a later `Unprocessed` record with the same output commitment, the code's
selection (de-duplicate before the status filter) differs from the
specified selection (first occurrence among the records satisfying the
conditions). -/
theorem round_selection_spec_mismatch :
    select_candidates testRoundEnv 101 (swaps_iter testStoreTwo) ≠
      spec_candidates testRoundEnv 101 (swaps_iter testStoreTwo) := by
  decide

theorem buildOutputs_eq_none {l : List SwapDataM} {s : SwapDataM}
    (hmem : s ∈ l) (hnone : s.rangeproof = none) : buildOutputs l = none := by
  induction l with
  | nil => cases hmem
  | cons x xs ih =>
    rw [buildOutputs]
    rcases List.mem_cons.mp hmem with rfl | hmem2
    · rw [hnone]
    · cases hx : x.rangeproof with
      | none => rfl
      | some rp => rw [ih hmem2]

theorem buildOutputs_isSome (l : List SwapDataM) :
    (buildOutputs l).isSome = true ↔ ∀ t ∈ l, (t.rangeproof).isSome = true := by
  induction l with
  | nil => simp [buildOutputs]
  | cons x xs ih =>
    rw [buildOutputs]
    cases hx : x.rangeproof with
    | none => simp [hx]
    | some rp =>
      cases hxs : buildOutputs xs with
      | none =>
        rw [hxs] at ih
        simp only [Option.isSome_none, Bool.false_eq_true, false_iff, not_forall] at ih
        simp only [Option.isSome_none, Bool.false_eq_true, false_iff, not_forall]
        obtain ⟨t, hmem, hnp⟩ := ih
        exact ⟨t, List.mem_cons_of_mem _ hmem, hnp⟩
      | some outs =>
        rw [hxs] at ih
        simp only [Option.isSome_some, true_iff] at ih
        simp only [Option.isSome_some, true_iff, List.mem_cons, true_iff]
        intro t hmem
        rcases hmem with rfl | hmem2
        · simp [hx]
        · exact ih t hmem2

/-- Claim C10 (round unwraps optional rangeproofs): if any selected
candidate carries no rangeproof, `execute_round` panics on the `unwrap`
while building outputs; the output-building step is panic-free exactly when
every selected record carries a rangeproof. -/
theorem round_rangeproof_unwrap (env : RoundEnv) (db : DBModel) (h0 : Nat)
    (s : SwapDataM)
    (hh : env.get_chain_height = some h0)
    (hs : s ∈ select_candidates env (h0 + 1) (swaps_iter db))
    (hrp : s.rangeproof = none) :
    ServerImpl.execute_round env db = none ∧
    ∀ l : List SwapDataM,
      (buildOutputs l).isSome = true ↔ ∀ t ∈ l, (t.rangeproof).isSome = true := by
  refine ⟨?_, buildOutputs_isSome⟩
  have hlen : (select_candidates env (h0 + 1) (swaps_iter db)).length ≠ 0 := by
    intro h0len
    rw [List.length_eq_zero] at h0len
    rw [h0len] at hs
    cases hs
  simp only [ServerImpl.execute_round, hh]
  rw [if_neg hlen, buildOutputs_eq_none hs hrp]

/-- Claim C1, counterexample to the unamended claim: a well-formed
single-hop route whose payload declares fee 0.  `create_onion` succeeds,
but the peel fails (`sub_value`'s `secp.commit(0, ZERO_KEY)` is the point
at infinity, surfacing `CalcCommitError`), so peeling yields no payload
and no final onion. -/
theorem onion_round_trip_zero_fee :
    create_onion testOracle ⟨7, 11⟩ [zeroFeeHop] 3 = .ok zeroFeeOnion ∧
    (∀ hp ∈ [zeroFeeHop], payload_wf hp.payload) ∧
    peelAll testOracle zeroFeeOnion ([zeroFeeHop].map (fun hp => hp.pubkey)) =
      none := by
  decide

/-- Witness for the C1 theorem at a concrete single-hop route: commitment
`(7, 11)`, hop key 2, excess 1, fee 5, session key 3, under `testOracle`. -/
theorem onion_round_trip_check :
    ∃ e, peelAll testOracle testOnion ([testHop].map (fun hp => hp.pubkey)) =
      some ([testHop].map (fun hp => hp.payload),
        ⟨e, ⟨(CommitmentM.mk 7 11).v -
            ((([testHop].map (fun hp => hp.payload.fee)).sum : Nat) : Scalar),
          (CommitmentM.mk 7 11).r +
            ([testHop].map (fun hp => hp.payload.excess)).sum⟩, []⟩) :=
  onion_round_trip testOracle ⟨7, 11⟩ [testHop] 3 testOnion (by decide) (by decide)
    (by decide)

/-- Witness for the C2 theorem at amount 1, blind 1, empty message, nonces
`(1, 1)` (signature `s = 2`, `t = 2` under `testOracle`'s challenge 1). -/
theorem comsig_round_trip_check :
    ComSignatureM.verify testOracle ⟨⟨1, 1⟩, 2, 2⟩ (commit 1 1) [] = .ok () :=
  comsig_round_trip testOracle 1 1 [] 1 1 ⟨⟨1, 1⟩, 2, 2⟩ (by decide) (by decide)

/-- Witness for the C3 theorem at a rejected request (two payloads) against
the empty store. -/
theorem swap_admission_atomic_check :
    (∀ e, (Except.error (SwapError.InvalidPayloadLength 1 2) :
        Except SwapError Unit) = .error e → ([] : DBModel) = []) ∧
    ((Except.error (SwapError.InvalidPayloadLength 1 2) :
        Except SwapError Unit) = .ok () →
      ∃ record, save_swap record false [] = (.ok (), [])) :=
  swap_admission_atomic testSwapEnv [] twoPayloadOnion lowFeeComsig
    (.error (.InvalidPayloadLength 1 2)) [] (by decide)

/-- Witness for the C6 theorem at a request whose peeled fee 1000000 is
below the 12500000 minimum. -/
theorem fee_floor_check :
    ((Except.error (SwapError.FeeTooLow 12500000 1000000) :
        Except SwapError Unit) =
      .error (.FeeTooLow get_minimum_swap_fee lowFeePayload.fee)) ↔
      lowFeePayload.fee < get_minimum_swap_fee :=
  (fee_floor testSwapEnv [] lowFeeOnion lowFeeComsig ⟨.Plain, ⟨7, 11⟩⟩
      lowFeePayload ⟨3, ⟨7 - 1000000, 11 + 1⟩, []⟩
      (by decide) (by decide) (by decide) (by decide)).2
    (.error (.FeeTooLow 12500000 1000000)) [] (by decide)

/-- Witness for the C7 theorem at `testSwapRecord` against the store that
already holds it. -/
theorem save_swap_semantics_check :
    (swap_exists testSwapRecord.input.commit
        (save_swap testSwapRecord false []).2 = true →
      save_swap testSwapRecord false (save_swap testSwapRecord false []).2 =
        (.error (.AlreadyExists testSwapRecord.input.commit),
          (save_swap testSwapRecord false []).2)) ∧
    (save_swap testSwapRecord true (save_swap testSwapRecord false []).2).1 =
      .ok () ∧
    (∀ ov db2, save_swap testSwapRecord ov
        (save_swap testSwapRecord false []).2 = (.ok (), db2) →
      get_swap testSwapRecord.input.commit db2 = .ok testSwapRecord) :=
  save_swap_semantics (save_swap testSwapRecord false []).2 testSwapRecord
    (by decide)

/-- Witness for the C8 theorem at one peel of `lowFeeOnion` with server
key 5. -/
theorem blinding_chain_check :
    ∃ b, secretKeyFromSlice (testOracle.sha256
        (serPubkey lowFeeOnion.ephemeral_pubkey ++
          (testOracle.ecdh (lowFeeOnion.ephemeral_pubkey * 5)).take 32)) =
        some b ∧
      (OnionM.mk 3 ⟨7 - 1000000, 11 + 1⟩ []).ephemeral_pubkey =
        lowFeeOnion.ephemeral_pubkey * b :=
  blinding_chain testOracle lowFeeOnion 5 lowFeePayload
    ⟨3, ⟨7 - 1000000, 11 + 1⟩, []⟩ (by decide)

/-- Witness for the C10 theorem at a store holding one spendable
`Unprocessed` record without a rangeproof. -/
theorem round_rangeproof_unwrap_check :
    ServerImpl.execute_round testRoundEnv testStoreNoProof = none ∧
    ∀ l : List SwapDataM,
      (buildOutputs l).isSome = true ↔ ∀ t ∈ l, (t.rangeproof).isSome = true :=
  round_rangeproof_unwrap testRoundEnv testStoreNoProof 100 testSwapRecordNoProof
    (by decide) (by decide) (by decide)
